import Mathlib

/-!
Shallow embedding of the Piet interpreter core
(repository your-diary/piet_programming_language) in Lean 4, together with
theorems settling the frozen claims about it.

Conventions of the embedding:
* Rust `isize` values are modelled as unbounded `Int` (the specification
  requires at least 64-bit signed integers; none of the verified operations
  depends on wrap-around).
* The interpreter stack `Vec<isize>` is modelled as `List Int` whose HEAD is
  the TOP of the stack (the last element of the `Vec`).
* Fallible operations (a Rust `panic!`-style abort such as a failed `unwrap`,
  a failed `assert!` or an `unreachable!`) are modelled with `Option`:
  `none` is a panic.
* Output is modelled as the list of bytes written to stdout
  (`Interpreter::output` appends the UTF-8 bytes of its argument).
-/

/-- Codel (src/codel.rs): the 20 Piet colours. -/
inductive Codel where
  | LightRed | LightYellow | LightGreen | LightCyan | LightBlue | LightMagenta
  | Red | Yellow | Green | Cyan | Blue | Magenta
  | DarkRed | DarkYellow | DarkGreen | DarkCyan | DarkBlue | DarkMagenta
  | White | Black
  deriving DecidableEq, Repr, Fintype

/-- Codel::is_black (src/codel.rs). -/
def Codel.is_black (c : Codel) : Bool := c = Codel.Black

/-- Codel::is_white (src/codel.rs). -/
def Codel.is_white (c : Codel) : Bool := c = Codel.White

/-- Codel::get_hue (src/codel.rs); `none` models the `unreachable!` arm hit by
White and Black. -/
def Codel.get_hue : Codel → Option Nat
  | .LightRed | .Red | .DarkRed => some 0
  | .LightYellow | .Yellow | .DarkYellow => some 1
  | .LightGreen | .Green | .DarkGreen => some 2
  | .LightCyan | .Cyan | .DarkCyan => some 3
  | .LightBlue | .Blue | .DarkBlue => some 4
  | .LightMagenta | .Magenta | .DarkMagenta => some 5
  | .White | .Black => none

/-- Codel::get_lightness (src/codel.rs); `none` models the `unreachable!` arm. -/
def Codel.get_lightness : Codel → Option Nat
  | .LightRed | .LightYellow | .LightGreen | .LightCyan | .LightBlue
  | .LightMagenta => some 0
  | .Red | .Yellow | .Green | .Cyan | .Blue | .Magenta => some 1
  | .DarkRed | .DarkYellow | .DarkGreen | .DarkCyan | .DarkBlue
  | .DarkMagenta => some 2
  | .White | .Black => none

/-- Codel::get_hue_difference (src/codel.rs): `(to + 6 - from) % 6` on the hues. -/
def Codel.get_hue_difference (from_ to_ : Codel) : Option Nat := do
  let f ← from_.get_hue
  let t ← to_.get_hue
  pure ((t + 6 - f) % 6)

/-- Codel::get_lightness_difference (src/codel.rs): `(to + 3 - from) % 3`. -/
def Codel.get_lightness_difference (from_ to_ : Codel) : Option Nat := do
  let f ← from_.get_lightness
  let t ← to_.get_lightness
  pure ((t + 3 - f) % 3)

/-- Direction Pointer (src/dp.rs). -/
inductive DP where
  | Right | Down | Left | Up
  deriving DecidableEq, Repr, Fintype

/-- The numeric value of a DP variant (`*self as isize` in Rust):
Right=0, Down=1, Left=2, Up=3. -/
def DP.toIndex : DP → Int
  | .Right => 0
  | .Down => 1
  | .Left => 2
  | .Up => 3

/-- DP::from_isize (src/dp.rs, FromPrimitive): `none` outside 0..=3. -/
def DP.from_isize (i : Int) : Option DP :=
  if i = 0 then some .Right
  else if i = 1 then some .Down
  else if i = 2 then some .Left
  else if i = 3 then some .Up
  else none

/-- DP::rotate_clockwise_by (src/dp.rs).  Rust `%` on `isize` is truncated
division remainder, i.e. `Int.tmod`.  The source unwraps `from_isize`; the
argument is always in 0..=3, so the unwrap is modelled by `Option.getD` with an
arbitrary default (the theorems show the `none` branch is never taken). -/
def DP.rotate_clockwise_by (d : DP) (i : Int) : DP :=
  let i := d.toIndex + i
  if 0 ≤ i then (DP.from_isize (i.tmod 4)).getD .Right
  else (DP.from_isize ((i.tmod 4 + 4).tmod 4)).getD .Right

/-- DP::turn_right (src/dp.rs). -/
def DP.turn_right (d : DP) : DP := d.rotate_clockwise_by 1

/-- DP::get_displacement (src/dp.rs): (row, column) index displacement of one
step in the DP direction. -/
def DP.get_displacement : DP → Int × Int
  | .Right => (0, 1)
  | .Down => (1, 0)
  | .Left => (0, -1)
  | .Up => (-1, 0)

/-- Codel Chooser (src/cc.rs). -/
inductive CC where
  | Left | Right
  deriving DecidableEq, Repr

/-- CC::flip (src/cc.rs). -/
def CC.flip : CC → CC
  | .Left => .Right
  | .Right => .Left

/-- Piet commands (src/command.rs). -/
inductive Command where
  | Push | Pop | Add | Subtract | Multiply | Divide | Mod | Not | Greater
  | Pointer | Switch | Duplicate | Roll | InNumber | InChar | OutNumber
  | OutChar
  deriving DecidableEq, Repr

/-- Command::new (src/command.rs): command from the (hue, lightness) deltas of
a colour transition; `none` models the `unreachable!` arm (including the case
where a delta is undefined because an operand is White or Black). -/
def Command.new (from_ to_ : Codel) : Option Command := do
  let h ← Codel.get_hue_difference from_ to_
  let l ← Codel.get_lightness_difference from_ to_
  match h, l with
  | 0, 1 => pure .Push
  | 0, 2 => pure .Pop
  | 1, 0 => pure .Add
  | 1, 1 => pure .Subtract
  | 1, 2 => pure .Multiply
  | 2, 0 => pure .Divide
  | 2, 1 => pure .Mod
  | 2, 2 => pure .Not
  | 3, 0 => pure .Greater
  | 3, 1 => pure .Pointer
  | 3, 2 => pure .Switch
  | 4, 0 => pure .Duplicate
  | 4, 1 => pure .Roll
  | 4, 2 => pure .InNumber
  | 5, 0 => pure .InChar
  | 5, 1 => pure .OutNumber
  | 5, 2 => pure .OutChar
  | _, _ => none

/-- Stdin (src/stdin.rs), abstracted: the byte-level UTF-8 decoding of the
reader is irrelevant to every claim, so a `Stdin` is modelled as the stream of
results its two public reads will produce.  `read_char` always yields a valid
Unicode scalar value, recorded here as its code point. -/
structure Stdin where
  intReads : List (Option Int)
  charReads : List (Option Nat)
  deriving DecidableEq, Repr

/-- Stdin::read_integer (src/stdin.rs), on the result-stream model. -/
def Stdin.read_integer (s : Stdin) : Option Int × Stdin :=
  match s.intReads with
  | [] => (none, s)
  | r :: rest => (r, { s with intReads := rest })

/-- Stdin::read_char (src/stdin.rs), on the result-stream model. -/
def Stdin.read_char (s : Stdin) : Option Nat × Stdin :=
  match s.charReads with
  | [] => (none, s)
  | r :: rest => (r, { s with charReads := rest })

/-- Interpreter state (src/interpreter.rs).  `output` is the list of bytes
written so far (the `output_buf` observed by the tests); `stack` is the value
stack with its HEAD as the TOP. -/
structure Interpreter where
  cur : Nat × Nat
  stack : List Int
  dp : DP
  cc : CC
  stdin : Stdin
  output : List Nat
  deriving DecidableEq, Repr

/-- Interpreter::new (src/interpreter.rs). -/
def Interpreter.new (stdin : Stdin) : Interpreter :=
  { cur := (0, 0), stack := [], dp := .Right, cc := .Left, stdin := stdin,
    output := [] }

/-- The UTF-8 encoding of a code point, as the Rust formatting machinery
produces it for a `char` (1 to 4 bytes chosen by the value range). -/
def utf8Encode (n : Nat) : List Nat :=
  if n < 0x80 then [n]
  else if n < 0x800 then [0xC0 + n / 64, 0x80 + n % 64]
  else if n < 0x10000 then
    [0xE0 + n / 4096, 0x80 + n / 64 % 64, 0x80 + n % 64]
  else
    [0xF0 + n / 262144, 0x80 + n / 4096 % 64, 0x80 + n / 64 % 64,
     0x80 + n % 64]

/-- The bytes of `format!("{}", x)` for an integer: ASCII decimal digits with a
leading minus sign for negative values. -/
def decimalBytes (x : Int) : List Nat := (toString x).data.map Char.toNat

/-- `char::from_u32` (Rust standard library): succeeds exactly on Unicode
scalar values, i.e. code points outside the surrogate range 0xD800..=0xDFFF
and at most 0x10FFFF. -/
def charFromU32 (n : Nat) : Option Nat :=
  if n < 0xD800 ∨ (0xDFFF < n ∧ n ≤ 0x10FFFF) then some n else none

/-- VecDeque::rotate_left on the buffer used by Roll (src/command.rs): the
element at index `k` becomes the first element.  Total because every call
site has `k ≤ l.length`. -/
def rotLeftBuf (l : List Int) (k : Nat) : List Int := l.drop k ++ l.take k

/-- VecDeque::rotate_right on the buffer used by Roll (src/command.rs). -/
def rotRightBuf (l : List Int) (k : Nat) : List Int :=
  rotLeftBuf l (l.length - k)

/-- The Roll arm of Command::execute (src/command.rs lines 223-253), as a
function of the stack alone (Roll touches nothing else).  The stack list has
its head as the top, so `num_roll` is the head and `depth` the second
element; `buf` collects the top `depth` values bottom-first, exactly as the
`push_front` loop of the source does. -/
def rollOp : List Int → List Int
  | num_roll :: depth :: rest =>
    if depth < 0 ∨ (rest.length : Int) < depth then num_roll :: depth :: rest
    else if depth ≤ 1 ∨ num_roll = 0 then rest
    else
      let d := depth.toNat
      let buf := (rest.take d).reverse
      let buf2 :=
        if 0 < num_roll then rotRightBuf buf (num_roll.tmod depth).toNat
        else rotLeftBuf buf (num_roll.natAbs % d)
      buf2.reverse ++ rest.drop d
  | st => st

/-- Command::execute (src/command.rs).  `none` models a panic: the
`assert!(block_size > 0)`, or the `unwrap` inside the OutChar arm failing on
a surrogate code point.  Rust `/` on `isize` is truncated division
(`Int.tdiv`); `num::Integer::div_floor` is flooring division (`Int.fdiv`). -/
def Command.execute (c : Command) (ip : Interpreter) (block_size : Nat) :
    Option Interpreter :=
  if block_size = 0 then none
  else
    match c with
    | .Push => some { ip with stack := (block_size : Int) :: ip.stack }
    | .Pop =>
      match ip.stack with
      | [] => some ip
      | _ :: rest => some { ip with stack := rest }
    | .Add =>
      match ip.stack with
      | x :: y :: rest => some { ip with stack := (x + y) :: rest }
      | _ => some ip
    | .Subtract =>
      match ip.stack with
      | x :: y :: rest => some { ip with stack := (y - x) :: rest }
      | _ => some ip
    | .Multiply =>
      match ip.stack with
      | x :: y :: rest => some { ip with stack := (x * y) :: rest }
      | _ => some ip
    | .Divide =>
      match ip.stack with
      | x :: y :: rest =>
        if x = 0 then some ip
        else some { ip with stack := y.tdiv x :: rest }
      | _ => some ip
    | .Mod =>
      match ip.stack with
      | x :: y :: rest =>
        if x = 0 then some ip
        else some { ip with stack := (y - y.fdiv x * x) :: rest }
      | _ => some ip
    | .Not =>
      match ip.stack with
      | x :: rest =>
        some { ip with stack := (if x = 0 then 1 else 0) :: rest }
      | _ => some ip
    | .Greater =>
      match ip.stack with
      | x :: y :: rest =>
        some { ip with stack := (if x < y then 1 else 0) :: rest }
      | _ => some ip
    | .Pointer =>
      match ip.stack with
      | x :: rest =>
        some { ip with stack := rest, dp := ip.dp.rotate_clockwise_by x }
      | _ => some ip
    | .Switch =>
      match ip.stack with
      | x :: rest =>
        some { ip with
               stack := rest,
               cc := if x.natAbs % 2 = 1 then ip.cc.flip else ip.cc }
      | _ => some ip
    | .Duplicate =>
      match ip.stack with
      | x :: rest => some { ip with stack := x :: x :: rest }
      | _ => some ip
    | .Roll => some { ip with stack := rollOp ip.stack }
    | .InNumber =>
      let (r, s) := ip.stdin.read_integer
      match r with
      | some n => some { ip with stack := n :: ip.stack, stdin := s }
      | none => some { ip with stdin := s }
    | .InChar =>
      let (r, s) := ip.stdin.read_char
      match r with
      | some cp => some { ip with stack := (cp : Int) :: ip.stack, stdin := s }
      | none => some { ip with stdin := s }
    | .OutNumber =>
      match ip.stack with
      | x :: rest =>
        some { ip with
               stack := rest,
               output := ip.output ++ decimalBytes x ++ [10] }
      | _ => some ip
    | .OutChar =>
      match ip.stack with
      | x :: rest =>
        if 0 ≤ x ∧ x ≤ 0x10FFFF then
          match charFromU32 x.toNat with
          | some cp =>
            some { ip with stack := rest, output := ip.output ++ utf8Encode cp }
          | none => none
        else some ip
      | _ => some ip

/-- Modelled from the spec: the image accessors that `run` (src/lib.rs) calls
(`get_codel_at`, `get_next_codel_index`, `get_block_size_at`) are absent from
src/src/image.rs, which is a stale draft without them.  Following spec section
4.7, an image is a codel grid of known dimensions together with the exit-step
lookup `get_next_codel_index` (exit corner of the current block for (DP, CC),
advanced one step in the DP direction; `none` when that step leaves the grid)
and the block-size lookup used only by Push. -/
structure Image where
  height : Nat
  width : Nat
  codelAt : Nat × Nat → Codel
  nextCodelIndex : Nat × Nat → DP → CC → Option (Nat × Nat)
  blockSizeAt : Nat × Nat → Nat

/-- Modelled from the spec: `get_next_codel_index_in_dp_direction`
(src/lib.rs white regime; the method itself is missing from the stale
src/src/image.rs).  Spec section 4.7: the single-step neighbour of `pos` in
the DP direction, `none` when that step is off-grid. -/
def Image.nextInDPDirection (img : Image) (pos : Nat × Nat) (dp : DP) :
    Option (Nat × Nat) :=
  let d := dp.get_displacement
  let i : Int := (pos.1 : Int) + d.1
  let j : Int := (pos.2 : Int) + d.2
  if 0 ≤ i ∧ i < (img.height : Int) ∧ 0 ≤ j ∧ j < (img.width : Int) then
    some (i.toNat, j.toNat)
  else none

/-- Whether the exit attempt from `pos` with the given (DP, CC) is blocked:
the adjacent codel is off-grid (`get_next_codel_index` returned `None`) or
Black (src/lib.rs lines 63-86). -/
def Image.blockedAt (img : Image) (pos : Nat × Nat) (dp : DP) (cc : CC) :
    Bool :=
  match img.nextCodelIndex pos dp cc with
  | none => true
  | some idx => (img.codelAt idx).is_black

/-- Result of the colored-regime try loop of `run` (src/lib.rs lines 52-100). -/
inductive StepResult where
  | terminated
  | next (st : Interpreter)
  | panicked
  deriving DecidableEq, Repr

/-- The colored-regime `for i in 0..8` loop of `run` (src/lib.rs lines 52-100),
one recursive call per loop iteration.  `i` is the loop counter of the source;
`fuel` only bounds the recursion and never runs out when starting from
`i = 0`, `fuel = 8` (the source loop body runs at most 8 times).
`.terminated` is the `return Ok(())` taken after the mutation of try `i = 7`;
`.next st` is the `break` out of the loop with the position already moved;
`.panicked` models the panics (`Command::new` hitting `unreachable!`,
`Command::execute` asserting, or fuel exhaustion, which is unreachable). -/
def tryLoop (img : Image) (st : Interpreter) (i : Nat) : Nat → StepResult
  | 0 => .panicked
  | fuel + 1 =>
    let blockedStep (st : Interpreter) : StepResult :=
      let st2 := if i % 2 = 0 then { st with cc := st.cc.flip }
                 else { st with dp := st.dp.turn_right }
      if i = 7 then .terminated else tryLoop img st2 (i + 1) fuel
    match img.nextCodelIndex st.cur st.dp st.cc with
    | none => blockedStep st
    | some idx =>
      if (img.codelAt idx).is_black then blockedStep st
      else if (img.codelAt idx).is_white then .next { st with cur := idx }
      else
        match Command.new (img.codelAt st.cur) (img.codelAt idx) with
        | none => .panicked
        | some cmd =>
          match cmd.execute st (img.blockSizeAt st.cur) with
          | none => .panicked
          | some st2 => .next { st2 with cur := idx }

/-- Result of the white-regime slide loop of `run` (src/lib.rs lines 101-145). -/
inductive WhiteResult where
  | terminated
  | maxIterHit
  | escaped (st : Interpreter) (numIter : Nat)
  deriving DecidableEq, Repr

/-- The white-regime slide loop of `run` (src/lib.rs lines 101-145), one
recursive call per loop iteration.  `visited` is the episode-local set of
(position, DP) pairs (a list, inserted only when absent, hence duplicate
free); `maxIter`/`numIter` mirror `args.max_iter` and the iteration counter.
`none` models running out of `fuel`, which the termination theorem shows
cannot happen with enough fuel; `.terminated` is the `return Ok(())` on a
repeated pair, `.maxIterHit` the iteration-cap exit, `.escaped` the `break`
onto a colored codel. -/
def whiteLoop (img : Image) (maxIter : Option Nat) :
    Interpreter → List ((Nat × Nat) × DP) → Nat → Nat → Option WhiteResult
  | _, _, _, 0 => none
  | st, visited, numIter, fuel + 1 =>
    if maxIter = some numIter then some .maxIterHit
    else if (st.cur, st.dp) ∈ visited then some .terminated
    else
      let visited2 := (st.cur, st.dp) :: visited
      let blockedStep (st : Interpreter) : Option WhiteResult :=
        whiteLoop img maxIter
          { st with cc := st.cc.flip, dp := st.dp.turn_right }
          visited2 (numIter + 1) fuel
      match img.nextInDPDirection st.cur st.dp with
      | none => blockedStep st
      | some idx =>
        if (img.codelAt idx).is_black then blockedStep st
        else if (img.codelAt idx).is_white then
          whiteLoop img maxIter { st with cur := idx } visited2
            (numIter + 1) fuel
        else some (.escaped { st with cur := idx } (numIter + 1))

/-- Lexicographic comparison step used by `Iterator::sorted` on `(usize, usize)`
pairs: `pmin p q` is the lexicographically smaller of the two (ties keep the
left argument). -/
def pmin (p q : Nat × Nat) : Nat × Nat :=
  if p.1 < q.1 then p else if q.1 < p.1 then q else if p.2 ≤ q.2 then p else q

/-- Lexicographically larger of two `(usize, usize)` pairs. -/
def pmax (p q : Nat × Nat) : Nat × Nat :=
  if p.1 < q.1 then q else if q.1 < p.1 then p else if p.2 ≤ q.2 then q else p

/-- `iter().sorted().next()` on a list of coordinate pairs: the
lexicographically least element (`none` on the empty list, where the source
would panic on `unwrap`). -/
def lexMin : List (Nat × Nat) → Option (Nat × Nat)
  | [] => none
  | x :: xs => some (xs.foldl pmin x)

/-- `iter().sorted().last()` on a list of coordinate pairs: the
lexicographically greatest element. -/
def lexMax : List (Nat × Nat) → Option (Nat × Nat)
  | [] => none
  | x :: xs => some (xs.foldl pmax x)

/-- `s.iter().min_by_key(|(i, _)| i).unwrap().0` (src/block.rs): the least
first coordinate. -/
def iMinOf : List (Nat × Nat) → Option Nat
  | [] => none
  | x :: xs => some (xs.foldl (fun m p => min m p.1) x.1)

/-- The greatest first coordinate (`max_by_key` on rows). -/
def iMaxOf : List (Nat × Nat) → Option Nat
  | [] => none
  | x :: xs => some (xs.foldl (fun m p => max m p.1) x.1)

/-- The least second coordinate (`min_by_key` on columns). -/
def jMinOf : List (Nat × Nat) → Option Nat
  | [] => none
  | x :: xs => some (xs.foldl (fun m p => min m p.2) x.2)

/-- The greatest second coordinate (`max_by_key` on columns). -/
def jMaxOf : List (Nat × Nat) → Option Nat
  | [] => none
  | x :: xs => some (xs.foldl (fun m p => max m p.2) x.2)

/-- Block (src/block.rs): size and the eight precomputed exit corners. -/
structure Block where
  size : Nat
  right_left : Nat × Nat
  right_right : Nat × Nat
  down_left : Nat × Nat
  down_right : Nat × Nat
  left_left : Nat × Nat
  left_right : Nat × Nat
  up_left : Nat × Nat
  up_right : Nat × Nat
  deriving DecidableEq, Repr

/-- Block::new (src/block.rs).  The hash set of codel coordinates is modelled
as the list an iterator over it yields (every `sorted()` makes the iteration
order irrelevant); `none` models the `unwrap` panics on an empty set. -/
def Block.new (s : List (Nat × Nat)) : Option Block := do
  let i_min ← iMinOf s
  let i_max ← iMaxOf s
  let j_min ← jMinOf s
  let j_max ← jMaxOf s
  let rl ← lexMin (s.filter (fun p => p.2 = j_max))
  let rr ← lexMax (s.filter (fun p => p.2 = j_max))
  let dl ← lexMax (s.filter (fun p => p.1 = i_max))
  let dr ← lexMin (s.filter (fun p => p.1 = i_max))
  let ll ← lexMax (s.filter (fun p => p.2 = j_min))
  let lr ← lexMin (s.filter (fun p => p.2 = j_min))
  let ul ← lexMin (s.filter (fun p => p.1 = i_min))
  let ur ← lexMax (s.filter (fun p => p.1 = i_min))
  pure { size := s.length, right_left := rl, right_right := rr,
         down_left := dl, down_right := dr, left_left := ll, left_right := lr,
         up_left := ul, up_right := ur }

/-- Block::get_corner_index (src/block.rs). -/
def Block.get_corner_index (b : Block) (dp : DP) (cc : CC) : Nat × Nat :=
  match dp, cc with
  | .Right, .Left => b.right_left
  | .Right, .Right => b.right_right
  | .Down, .Left => b.down_left
  | .Down, .Right => b.down_right
  | .Left, .Left => b.left_left
  | .Left, .Right => b.left_right
  | .Up, .Left => b.up_left
  | .Up, .Right => b.up_right

/-- The corner table of the SPEC (spec.md section 3), stated in its own words:
for each DP the extreme row or column in the DP direction is selected, and
among the codels on that extreme the CC picks the stated row or column
extreme.  `cornerSpec s dp cc c` says that `c` is a correct corner of the
coordinate set `s` for `(dp, cc)` according to that table. -/
def cornerSpec (s : List (Nat × Nat)) (dp : DP) (cc : CC) (c : Nat × Nat) :
    Prop :=
  match dp, cc with
  | .Right, .Left =>
    (∀ q ∈ s, q.2 ≤ c.2) ∧ ∀ q ∈ s, q.2 = c.2 → c.1 ≤ q.1
  | .Right, .Right =>
    (∀ q ∈ s, q.2 ≤ c.2) ∧ ∀ q ∈ s, q.2 = c.2 → q.1 ≤ c.1
  | .Down, .Left =>
    (∀ q ∈ s, q.1 ≤ c.1) ∧ ∀ q ∈ s, q.1 = c.1 → q.2 ≤ c.2
  | .Down, .Right =>
    (∀ q ∈ s, q.1 ≤ c.1) ∧ ∀ q ∈ s, q.1 = c.1 → c.2 ≤ q.2
  | .Left, .Left =>
    (∀ q ∈ s, c.2 ≤ q.2) ∧ ∀ q ∈ s, q.2 = c.2 → q.1 ≤ c.1
  | .Left, .Right =>
    (∀ q ∈ s, c.2 ≤ q.2) ∧ ∀ q ∈ s, q.2 = c.2 → c.1 ≤ q.1
  | .Up, .Left =>
    (∀ q ∈ s, c.1 ≤ q.1) ∧ ∀ q ∈ s, q.1 = c.1 → c.2 ≤ q.2
  | .Up, .Right =>
    (∀ q ∈ s, c.1 ≤ q.1) ∧ ∀ q ∈ s, q.1 = c.1 → q.2 ≤ c.2

/-! ### Arithmetic helper lemmas -/

theorem fdivNegNeg (a b : Int) : Int.fdiv (-a) (-b) = Int.fdiv a b := by
  cases a with
  | ofNat m =>
    cases m with
    | zero => simp
    | succ m =>
      cases b with
      | ofNat n =>
        cases n with
        | zero => simp
        | succ n => rfl
      | negSucc n => rfl
  | negSucc m =>
    cases b with
    | ofNat n =>
      cases n with
      | zero => simp
      | succ n => rfl
    | negSucc n => rfl

theorem tmodNegLeft (a b : Int) : (-a).tmod b = -(a.tmod b) := by
  simp [Int.tmod_def, Int.neg_tdiv]; ring

theorem tmod_wrap_eq_emod (i : Int) (h : i < 0) :
    (i.tmod 4 + 4).tmod 4 = i % 4 := by
  have h1 : i.tmod 4 = -((-i).tmod 4) := by rw [← tmodNegLeft]; simp
  have h2 : (-i).tmod 4 = (-i) % 4 := Int.tmod_eq_emod (by omega) (by omega)
  have h3 : 0 ≤ (-i) % 4 := Int.emod_nonneg _ (by omega)
  have h4 : (-i) % 4 < 4 := Int.emod_lt_of_pos _ (by omega)
  have h5 : 0 ≤ i.tmod 4 + 4 := by omega
  rw [Int.tmod_eq_emod h5 (by omega)]
  omega

theorem from_isize_getD_toIndex (j : Int) (h0 : 0 ≤ j) (h3 : j < 4) :
    ((DP.from_isize j).getD .Right).toIndex = j := by
  have h : j = 0 ∨ j = 1 ∨ j = 2 ∨ j = 3 := by omega
  rcases h with h | h | h | h <;> subst h <;> rfl

theorem rotate_clockwise_by_toIndex (d : DP) (n : Int) :
    (d.rotate_clockwise_by n).toIndex = (d.toIndex + n) % 4 := by
  show (if 0 ≤ d.toIndex + n then
          (DP.from_isize ((d.toIndex + n).tmod 4)).getD .Right
        else
          (DP.from_isize (((d.toIndex + n).tmod 4 + 4).tmod 4)).getD
            .Right).toIndex = (d.toIndex + n) % 4
  by_cases h : 0 ≤ d.toIndex + n
  · rw [if_pos h, Int.tmod_eq_emod h (by norm_num)]
    exact from_isize_getD_toIndex _ (Int.emod_nonneg _ (by norm_num))
      (Int.emod_lt_of_pos _ (by norm_num))
  · rw [if_neg h, tmod_wrap_eq_emod _ (by omega)]
    exact from_isize_getD_toIndex _ (Int.emod_nonneg _ (by norm_num))
      (Int.emod_lt_of_pos _ (by norm_num))

/-! ### Concrete states used by witnesses -/

/-- A state with stack [3] (head = top). -/
def stPtr : Interpreter :=
  { cur := (0, 0), stack := [3], dp := .Right, cc := .Left,
    stdin := ⟨[], []⟩, output := [] }

/-- A state with top 3 and second 5. -/
def stMod : Interpreter :=
  { cur := (0, 0), stack := [3, 5], dp := .Right, cc := .Left,
    stdin := ⟨[], []⟩, output := [] }

/-- A state whose Roll operands fail the depth guard (top 5, depth -2). -/
def stRoll : Interpreter :=
  { cur := (0, 0), stack := [5, -2, 9], dp := .Right, cc := .Left,
    stdin := ⟨[], []⟩, output := [] }

/-- A state whose top is the surrogate code point 0xD800. -/
def stSurrogate : Interpreter :=
  { cur := (0, 0), stack := [0xD800], dp := .Right, cc := .Left,
    stdin := ⟨[], []⟩, output := [] }

/-! ### C8 -/

/-- C8: DP::rotate_clockwise_by is rotation by the mathematical non-negative
modulus 4 on the index order Right=0, Down=1, Left=2, Up=3 (stated through
`toIndex`, which separates the four directions); rotating Right by -1 yields
Up; and the Pointer command, on a non-empty stack, pops the top value and
applies exactly this rotation to DP. -/
theorem pointer_rotation_mod4 (d : DP) (n : Int) (ip : Interpreter)
    (x : Int) (rest : List Int) (bs : Nat) (hbs : bs ≠ 0)
    (hst : ip.stack = x :: rest) :
    (d.rotate_clockwise_by n).toIndex = (d.toIndex + n) % 4 ∧
    DP.Right.rotate_clockwise_by (-1) = DP.Up ∧
    Command.execute .Pointer ip bs =
      some { ip with stack := rest, dp := ip.dp.rotate_clockwise_by x } := by
  refine ⟨rotate_clockwise_by_toIndex d n, by decide, ?_⟩
  simp [Command.execute, hbs, hst]

/-- Witness for C8 at DP=Down, n=-5, and a state with stack [3]. -/
theorem pointer_rotation_mod4_witness :
    (DP.Down.rotate_clockwise_by (-5)).toIndex = (DP.Down.toIndex + (-5)) % 4 ∧
    DP.Right.rotate_clockwise_by (-1) = DP.Up ∧
    Command.execute .Pointer stPtr 1 =
      some { stPtr with stack := [], dp := stPtr.dp.rotate_clockwise_by 3 } :=
  pointer_rotation_mod4 .Down (-5) stPtr 3 [] 1 (by decide) rfl

/-! ### C9 -/

/-- C9: for codels a, b that are neither White nor Black, the hue delta is in
0..5, the lightness delta is in 0..2, and opposite hue deltas sum to 0 or 6,
with 0 exactly when the hues agree. -/
theorem hue_lightness_delta_props :
    ∀ a b : Codel, a ≠ .White → a ≠ .Black → b ≠ .White → b ≠ .Black →
      ∃ hab ≤ 5, ∃ hba ≤ 5, ∃ lab ≤ 2,
        Codel.get_hue_difference a b = some hab ∧
        Codel.get_hue_difference b a = some hba ∧
        Codel.get_lightness_difference a b = some lab ∧
        (hab + hba = 0 ∨ hab + hba = 6) ∧
        (hab + hba = 0 ↔ a.get_hue = b.get_hue) := by decide

/-- Witness for C9 at a = Red, b = LightBlue. -/
theorem hue_lightness_delta_props_witness :
    ∃ hab ≤ 5, ∃ hba ≤ 5, ∃ lab ≤ 2,
      Codel.get_hue_difference .Red .LightBlue = some hab ∧
      Codel.get_hue_difference .LightBlue .Red = some hba ∧
      Codel.get_lightness_difference .Red .LightBlue = some lab ∧
      (hab + hba = 0 ∨ hab + hba = 6) ∧
      (hab + hba = 0 ↔ Codel.Red.get_hue = Codel.LightBlue.get_hue) :=
  hue_lightness_delta_props .Red .LightBlue (by decide) (by decide)
    (by decide) (by decide)

/-! ### C1 -/

/-- C1: the code contradicts the claim at a surrogate top of stack.  The claim
requires OutChar with top 0xD800 (not a Unicode scalar value) to be a no-op
leaving the whole stack unchanged; the source checks only
`0 <= x <= char::MAX`, so 0xD800 passes the check, is popped, and
`char::from_u32(x).unwrap()` panics (modelled as `none`). -/
theorem outChar_surrogate_panics :
    Command.execute .OutChar stSurrogate 1 = none := by decide

/-! ### C3 -/

/-- C3: Mod on a stack with at least two entries: a zero top is a complete
no-op (nothing popped); otherwise both operands are popped,
`y - floor(y/x)*x` is pushed, and the pushed value is zero or has the sign
of the divisor x. -/
theorem mod_floored_sign (ip : Interpreter) (bs : Nat) (hbs : bs ≠ 0)
    (x y : Int) (rest : List Int) (hst : ip.stack = x :: y :: rest) :
    (x = 0 → Command.execute .Mod ip bs = some ip) ∧
    (x ≠ 0 →
      Command.execute .Mod ip bs =
        some { ip with stack := (y - y.fdiv x * x) :: rest } ∧
      (y - y.fdiv x * x = 0 ∨
        (0 < y - y.fdiv x * x ∧ 0 < x) ∨
        (y - y.fdiv x * x < 0 ∧ x < 0))) := by
  constructor
  · intro hx; subst hx; simp [Command.execute, hbs, hst]
  · intro hx
    refine ⟨by simp [Command.execute, hbs, hst, hx], ?_⟩
    rcases lt_or_gt_of_ne hx with hneg | hpos
    · have h1 : y.fdiv x = (-y).fdiv (-x) := (fdivNegNeg y x).symm
      have h2 : (-y).fmod (-x) = -y - (-x) * ((-y).fdiv (-x)) :=
        Int.fmod_def _ _
      have h3 : 0 ≤ (-y).fmod (-x) := Int.fmod_nonneg' _ (by omega)
      have h4 : y - y.fdiv x * x = -((-y).fmod (-x)) := by rw [h2, h1]; ring
      omega
    · have h2 : y.fmod x = y - x * (y.fdiv x) := Int.fmod_def _ _
      have h3 : 0 ≤ y.fmod x := Int.fmod_nonneg' _ hpos
      have h4 : y - y.fdiv x * x = y.fmod x := by rw [h2]; ring
      omega

/-- Witness for C3 at top 3, second 5. -/
theorem mod_floored_sign_witness :
    ((3 : Int) = 0 → Command.execute .Mod stMod 1 = some stMod) ∧
    ((3 : Int) ≠ 0 →
      Command.execute .Mod stMod 1 =
        some { stMod with stack := ((5 : Int) - (5 : Int).fdiv 3 * 3) :: [] } ∧
      ((5 : Int) - (5 : Int).fdiv 3 * 3 = 0 ∨
        (0 < (5 : Int) - (5 : Int).fdiv 3 * 3 ∧ (0 : Int) < 3) ∨
        ((5 : Int) - (5 : Int).fdiv 3 * 3 < 0 ∧ (3 : Int) < 0))) :=
  mod_floored_sign stMod 1 (by decide) 3 5 [] rfl

/-! ### C4 -/

/-- C4: Roll with a failing depth guard (negative depth, or depth larger than
the rest of the stack) leaves the entire stack unchanged, popping nothing;
a stack with fewer than two entries is likewise untouched. -/
theorem roll_guard_noop (ip : Interpreter) (bs : Nat) (hbs : bs ≠ 0)
    (k d : Int) (rest : List Int) :
    (ip.stack = k :: d :: rest → (d < 0 ∨ (rest.length : Int) < d) →
       Command.execute .Roll ip bs = some ip) ∧
    (ip.stack.length < 2 → Command.execute .Roll ip bs = some ip) := by
  constructor
  · intro hst hguard
    have hro : rollOp ip.stack = ip.stack := by
      rw [hst]; simp only [rollOp]; rw [if_pos hguard]
    simp [Command.execute, hbs, hro]
  · intro hlen
    have hro : rollOp ip.stack = ip.stack := by
      rcases hs : ip.stack with _ | ⟨a, _ | ⟨b, r⟩⟩
      · rfl
      · rfl
      · exfalso; rw [hs] at hlen
        simp only [List.length_cons] at hlen; omega
    simp [Command.execute, hbs, hro]

/-- Witness for C4 at the guard-failing state stRoll (top 5, depth -2). -/
theorem roll_guard_noop_witness :
    (stRoll.stack = 5 :: (-2) :: [9] →
       ((-2 : Int) < 0 ∨ (([9] : List Int).length : Int) < -2) →
       Command.execute .Roll stRoll 1 = some stRoll) ∧
    (stRoll.stack.length < 2 → Command.execute .Roll stRoll 1 = some stRoll) :=
  roll_guard_noop stRoll 1 (by decide) 5 (-2) [9]

/-! ### C10 -/

/-- C10: every command execution that completes leaves the position `cur`
unchanged, changes DP only if the command is Pointer, and changes CC only if
the command is Switch. -/
theorem execute_frame (c : Command) (ip ipr : Interpreter) (bs : Nat)
    (h : Command.execute c ip bs = some ipr) :
    ipr.cur = ip.cur ∧ (c ≠ .Pointer → ipr.dp = ip.dp) ∧
    (c ≠ .Switch → ipr.cc = ip.cc) := by
  cases c <;>
    (simp only [Command.execute, Stdin.read_integer, Stdin.read_char] at h;
     repeat' split at h) <;>
    (try injection h with h) <;>
    (try subst h) <;>
    simp_all

/-- Witness for C10: Pop on the state with stack [3]. -/
theorem execute_frame_witness :
    ({ stPtr with stack := ([] : List Int) } : Interpreter).cur = stPtr.cur ∧
    (Command.Pop ≠ .Pointer →
      ({ stPtr with stack := ([] : List Int) } : Interpreter).dp = stPtr.dp) ∧
    (Command.Pop ≠ .Switch →
      ({ stPtr with stack := ([] : List Int) } : Interpreter).cc = stPtr.cc) :=
  execute_frame .Pop stPtr { stPtr with stack := [] } 1 (by rfl)

/-! ### C2 -/

theorem rotLeftBuf_length (l : List Int) (k : Nat) :
    (rotLeftBuf l k).length = l.length := by
  simp [rotLeftBuf]; omega

theorem rotRightBuf_length (l : List Int) (k : Nat) :
    (rotRightBuf l k).length = l.length := by
  simp [rotRightBuf, rotLeftBuf]

theorem rotLeftBuf_eq_rotate (l : List Int) (k : Nat) (h : k ≤ l.length) :
    rotLeftBuf l k = l.rotate k := by
  rw [List.rotate_eq_drop_append_take h]; rfl

theorem rotLeft_rotRight_cancel (l : List Int) (k : Nat) (h : k ≤ l.length) :
    rotLeftBuf (rotRightBuf l k) k = l := by
  rw [rotRightBuf, rotLeftBuf_eq_rotate l _ (Nat.sub_le _ _),
      rotLeftBuf_eq_rotate _ _ (by rw [List.length_rotate]; exact h),
      List.rotate_rotate]
  have he : l.length - k + k = l.length := by omega
  rw [he, List.rotate_length]

theorem rotRight_rotLeft_cancel (l : List Int) (k : Nat) (h : k ≤ l.length) :
    rotRightBuf (rotLeftBuf l k) k = l := by
  rw [rotLeftBuf_eq_rotate l k h, rotRightBuf, List.length_rotate,
      rotLeftBuf_eq_rotate _ _ (by rw [List.length_rotate]; exact Nat.sub_le _ _),
      List.rotate_rotate]
  have he : k + (l.length - k) = l.length := by omega
  rw [he, List.rotate_length]

theorem tmod_toNat_eq_natAbs_mod (k d : Int) (hk : 0 < k) (hd : 0 < d) :
    (k.tmod d).toNat = k.natAbs % d.toNat := by
  rw [Int.tmod_eq_emod (by omega) (by omega)]
  have h0 : 0 ≤ k % d := Int.emod_nonneg _ (by omega)
  have h1 : ((k.natAbs % d.toNat : Nat) : Int) = k % d := by
    push_cast
    rw [abs_of_pos hk, Int.toNat_of_nonneg (le_of_lt hd)]
  omega

/-- The non-degenerate branch of the Roll arm, both guards resolved. -/
theorem rollOp_eq (nr dep : Int) (rest : List Int)
    (hg : ¬(dep < 0 ∨ (rest.length : Int) < dep))
    (hd : ¬(dep ≤ 1 ∨ nr = 0)) :
    rollOp (nr :: dep :: rest) =
      (if 0 < nr then
        rotRightBuf (rest.take dep.toNat).reverse (nr.tmod dep).toNat
       else rotLeftBuf (rest.take dep.toNat).reverse (nr.natAbs % dep.toNat)
       ).reverse ++ rest.drop dep.toNat := by
  simp only [rollOp]; rw [if_neg hg, if_neg hd]

/-- C2: for every stack S, every depth d with 0 <= d <= |S| and every number
of rolls k, Roll with (depth=d, num_roll=k) followed by Roll with
(depth=d, num_roll=-k) on the result restores S exactly.  The operand pairs
are pushed on top of the stack (head = top). -/
theorem roll_inverse (S : List Int) (d k : Int) (h0 : 0 ≤ d)
    (h1 : d ≤ (S.length : Int)) :
    rollOp ((-k) :: d :: rollOp (k :: d :: S)) = S := by
  have hguard : ¬(d < 0 ∨ (S.length : Int) < d) := by omega
  by_cases hdeg : d ≤ 1 ∨ k = 0
  · have e1 : rollOp (k :: d :: S) = S := by
      simp only [rollOp]; rw [if_neg hguard, if_pos hdeg]
    have hdeg2 : d ≤ 1 ∨ -k = 0 := by omega
    rw [e1]
    simp only [rollOp]; rw [if_neg hguard, if_pos hdeg2]
  · have hd1 : 1 < d := by omega
    have hk0 : k ≠ 0 := by omega
    set dn := d.toNat with hdn
    have hdng : (dn : Int) = d := Int.toNat_of_nonneg h0
    have hdn2 : 2 ≤ dn := by omega
    have hdnS : dn ≤ S.length := by omega
    set buf := (S.take dn).reverse with hbufdef
    have hbuf : buf.length = dn := by
      simp [hbufdef, List.length_take]; omega
    rcases lt_or_gt_of_ne hk0 with hkneg | hkpos
    · -- k < 0: the first roll rotates left, the second rotates right
      set m : Nat := k.natAbs % dn with hmdef
      have hmlt : m < dn := Nat.mod_lt _ (by omega)
      have e1 : rollOp (k :: d :: S) =
          (rotLeftBuf buf m).reverse ++ S.drop dn := by
        rw [rollOp_eq k d S hguard hdeg, if_neg (by omega)]
      set S1 : List Int := (rotLeftBuf buf m).reverse ++ S.drop dn with hS1def
      have hlen1 : (rotLeftBuf buf m).reverse.length = dn := by
        rw [List.length_reverse, rotLeftBuf_length, hbuf]
      have hS1len : S1.length = S.length := by
        simp only [hS1def, List.length_append, hlen1, List.length_drop]
        omega
      have hguard2 : ¬(d < 0 ∨ (S1.length : Int) < d) := by
        rw [hS1len]; omega
      have hdeg2 : ¬(d ≤ 1 ∨ -k = 0) := by omega
      have e2 : rollOp ((-k) :: d :: S1) =
          (rotRightBuf (S1.take dn).reverse ((-k).tmod d).toNat).reverse
            ++ S1.drop dn := by
        rw [rollOp_eq (-k) d S1 hguard2 hdeg2, if_pos (by omega)]
      have htake : S1.take dn = (rotLeftBuf buf m).reverse := by
        rw [hS1def, ← hlen1, List.take_left]
      have hdrop : S1.drop dn = S.drop dn := by
        rw [hS1def, ← hlen1, List.drop_left]
      have hm2 : ((-k).tmod d).toNat = m := by
        rw [tmod_toNat_eq_natAbs_mod (-k) d (by omega) (by omega)]
        simp [hmdef]
      rw [e1, e2, htake, hdrop, hm2, List.reverse_reverse,
          rotRight_rotLeft_cancel buf m (by omega), hbufdef,
          List.reverse_reverse, List.take_append_drop]
    · -- 0 < k: the first roll rotates right, the second rotates left
      set m : Nat := (k.tmod d).toNat with hmdef
      have hm : m = k.natAbs % dn :=
        tmod_toNat_eq_natAbs_mod k d hkpos (by omega)
      have hmlt : m < dn := by rw [hm]; exact Nat.mod_lt _ (by omega)
      have e1 : rollOp (k :: d :: S) =
          (rotRightBuf buf m).reverse ++ S.drop dn := by
        rw [rollOp_eq k d S hguard hdeg, if_pos hkpos]
      set S1 : List Int := (rotRightBuf buf m).reverse ++ S.drop dn with hS1def
      have hlen1 : (rotRightBuf buf m).reverse.length = dn := by
        rw [List.length_reverse, rotRightBuf_length, hbuf]
      have hS1len : S1.length = S.length := by
        simp only [hS1def, List.length_append, hlen1, List.length_drop]
        omega
      have hguard2 : ¬(d < 0 ∨ (S1.length : Int) < d) := by
        rw [hS1len]; omega
      have hdeg2 : ¬(d ≤ 1 ∨ -k = 0) := by omega
      have e2 : rollOp ((-k) :: d :: S1) =
          (rotLeftBuf (S1.take dn).reverse ((-k).natAbs % dn)).reverse
            ++ S1.drop dn := by
        rw [rollOp_eq (-k) d S1 hguard2 hdeg2, if_neg (by omega)]
      have htake : S1.take dn = (rotRightBuf buf m).reverse := by
        rw [hS1def, ← hlen1, List.take_left]
      have hdrop : S1.drop dn = S.drop dn := by
        rw [hS1def, ← hlen1, List.drop_left]
      have hm2 : (-k).natAbs % dn = m := by rw [hm]; simp
      rw [e1, e2, htake, hdrop, hm2, List.reverse_reverse,
          rotLeft_rotRight_cancel buf m (by omega), hbufdef,
          List.reverse_reverse, List.take_append_drop]

/-- Witness for C2 at S = [1,2,3,4], d = 3, k = 2. -/
theorem roll_inverse_witness :
    rollOp ((-2) :: 3 :: rollOp (2 :: 3 :: [1, 2, 3, 4])) = [1, 2, 3, 4] :=
  roll_inverse [1, 2, 3, 4] 3 2 (by decide) (by decide)

/-! ### C6 -/

/-- One blocked try of the colored-regime loop: with the exit attempt blocked
(off-grid or Black), the loop mutates CC on even tries and DP on odd tries,
terminates right after the mutation when the try index is 7, and otherwise
proceeds to the next try. -/
theorem tryLoop_blocked_step (img : Image) (st : Interpreter) (i fuel : Nat)
    (hb : img.blockedAt st.cur st.dp st.cc = true) :
    tryLoop img st i (fuel + 1) =
      if i = 7 then .terminated
      else tryLoop img
        (if i % 2 = 0 then { st with cc := st.cc.flip }
         else { st with dp := st.dp.turn_right }) (i + 1) fuel := by
  unfold Image.blockedAt at hb
  conv_lhs => unfold tryLoop
  cases hn : img.nextCodelIndex st.cur st.dp st.cc with
  | none => simp [hn]
  | some idx =>
    rw [hn] at hb
    simp only [] at hb
    simp [hn, hb]

/-- When every (DP, CC) attempt from the current position is blocked, the try
loop reaches try 7 and terminates. -/
theorem tryLoop_all_blocked (img : Image) (pos : Nat × Nat)
    (hall : ∀ dp cc, img.blockedAt pos dp cc = true) :
    ∀ fuel j (st : Interpreter), st.cur = pos → j ≤ 7 → j + fuel = 8 →
      tryLoop img st j fuel = .terminated := by
  intro fuel
  induction fuel with
  | zero => intro j st hcur hj7 hj8; omega
  | succ f ih =>
    intro j st hcur hj7 hj8
    rw [tryLoop_blocked_step img st j f (by rw [hcur]; exact hall _ _)]
    by_cases h7 : j = 7
    · rw [if_pos h7]
    · rw [if_neg h7]
      exact ih (j + 1) _ (by split <;> simpa using hcur) (by omega) (by omega)

/-- C6: in the colored regime, a blocked exit attempt on try i flips CC when i
is even and turns DP clockwise when i is odd, leaving the position and the
stack untouched; the mutation on try 7 is followed by immediate clean
termination (the `return Ok(())` of run), and eight consecutively blocked
tries from try 0 terminate the run. -/
theorem colored_blocked_protocol (img : Image) (st : Interpreter)
    (i fuel : Nat) (hb : img.blockedAt st.cur st.dp st.cc = true) :
    (i % 2 = 0 → i ≠ 7 →
       tryLoop img st i (fuel + 1) =
         tryLoop img { st with cc := st.cc.flip } (i + 1) fuel) ∧
    (i % 2 = 1 → i ≠ 7 →
       tryLoop img st i (fuel + 1) =
         tryLoop img { st with dp := st.dp.turn_right } (i + 1) fuel) ∧
    (i = 7 → tryLoop img st i (fuel + 1) = .terminated) ∧
    ({ st with cc := st.cc.flip } : Interpreter).cur = st.cur ∧
    ({ st with cc := st.cc.flip } : Interpreter).stack = st.stack ∧
    ({ st with dp := st.dp.turn_right } : Interpreter).cur = st.cur ∧
    ({ st with dp := st.dp.turn_right } : Interpreter).stack = st.stack ∧
    ((∀ dp cc, img.blockedAt st.cur dp cc = true) →
       tryLoop img st 0 8 = .terminated) := by
  refine ⟨?_, ?_, ?_, rfl, rfl, rfl, rfl, ?_⟩
  · intro he h7
    rw [tryLoop_blocked_step img st i fuel hb, if_neg h7, if_pos he]
  · intro ho h7
    rw [tryLoop_blocked_step img st i fuel hb, if_neg h7,
        if_neg (by omega : ¬i % 2 = 0)]
  · intro h7
    rw [tryLoop_blocked_step img st i fuel hb, if_pos h7]
  · intro hall
    exact tryLoop_all_blocked img st.cur hall 8 0 st rfl (by omega) rfl

/-- An image on which every exit attempt is blocked. -/
def imgBlocked : Image :=
  { height := 1, width := 1, codelAt := fun _ => .Red,
    nextCodelIndex := fun _ _ _ => none, blockSizeAt := fun _ => 1 }

/-- Witness for C6 on the everywhere-blocked image at try 0. -/
theorem colored_blocked_protocol_witness :
    ((0 : Nat) % 2 = 0 → (0 : Nat) ≠ 7 →
       tryLoop imgBlocked stPtr 0 (4 + 1) =
         tryLoop imgBlocked { stPtr with cc := stPtr.cc.flip } (0 + 1) 4) ∧
    ((0 : Nat) % 2 = 1 → (0 : Nat) ≠ 7 →
       tryLoop imgBlocked stPtr 0 (4 + 1) =
         tryLoop imgBlocked { stPtr with dp := stPtr.dp.turn_right }
           (0 + 1) 4) ∧
    ((0 : Nat) = 7 → tryLoop imgBlocked stPtr 0 (4 + 1) = .terminated) ∧
    ({ stPtr with cc := stPtr.cc.flip } : Interpreter).cur = stPtr.cur ∧
    ({ stPtr with cc := stPtr.cc.flip } : Interpreter).stack = stPtr.stack ∧
    ({ stPtr with dp := stPtr.dp.turn_right } : Interpreter).cur =
      stPtr.cur ∧
    ({ stPtr with dp := stPtr.dp.turn_right } : Interpreter).stack =
      stPtr.stack ∧
    ((∀ dp cc, imgBlocked.blockedAt stPtr.cur dp cc = true) →
       tryLoop imgBlocked stPtr 0 8 = .terminated) :=
  colored_blocked_protocol imgBlocked stPtr 0 4 (by rfl)

/-! ### C7 -/

/-- The single-step neighbour returned during a white slide is inside the
grid. -/
theorem nextInDPDirection_in_grid (img : Image) (pos : Nat × Nat) (dp : DP)
    (idx : Nat × Nat) (h : img.nextInDPDirection pos dp = some idx) :
    idx.1 < img.height ∧ idx.2 < img.width := by
  simp only [Image.nextInDPDirection] at h
  split at h
  · rename_i hcond
    injection h with h
    subst h
    obtain ⟨h1, h2, h3, h4⟩ := hcond
    constructor <;> simp <;> omega
  · exact absurd h (by simp)

/-- C7: every white-regime slide episode terminates.  Each iteration either
escapes to a colored codel, hits the optional iteration cap, finds the
current (position, DP) pair already recorded and terminates cleanly, or
records a pair never seen before; since the recorded pairs are duplicate
free and drawn from the at most 4 * height * width pairs of the grid, a fuel
of 4 * height * width + 1 minus the pairs already recorded always suffices,
so the loop cannot run forever (`isSome`: the fuel never runs out). -/
theorem white_slide_terminates (img : Image) (maxIter : Option Nat) :
    ∀ (fuel : Nat) (st : Interpreter) (visited : List ((Nat × Nat) × DP))
      (numIter : Nat),
      visited.Nodup →
      (∀ p ∈ visited, p.1.1 < img.height ∧ p.1.2 < img.width) →
      st.cur.1 < img.height ∧ st.cur.2 < img.width →
      4 * img.height * img.width + 1 ≤ fuel + visited.length →
      (whiteLoop img maxIter st visited numIter fuel).isSome := by
  intro fuel
  induction fuel with
  | zero =>
    intro st visited numIter hnd hvg hcg hfuel
    exfalso
    have hcard : visited.toFinset.card = visited.length :=
      List.toFinset_card_of_nodup hnd
    have hsub : visited.toFinset ⊆
        (Finset.range img.height ×ˢ Finset.range img.width) ×ˢ
          (Finset.univ : Finset DP) := by
      intro x hx
      have hm := List.mem_toFinset.mp hx
      have := hvg x hm
      simp [Finset.mem_product, Finset.mem_range]
      exact this
    have hle : visited.toFinset.card ≤
        ((Finset.range img.height ×ˢ Finset.range img.width) ×ˢ
          (Finset.univ : Finset DP)).card := Finset.card_le_card hsub
    have hcardS : ((Finset.range img.height ×ˢ Finset.range img.width) ×ˢ
        (Finset.univ : Finset DP)).card = img.height * img.width * 4 := by
      rw [Finset.card_product, Finset.card_product, Finset.card_range,
          Finset.card_range]
      rfl
    rw [hcard, hcardS] at hle
    have hfix : 4 * img.height * img.width = img.height * img.width * 4 := by
      ring
    rw [hfix] at hfuel
    omega
  | succ f ih =>
    intro st visited numIter hnd hvg hcg hfuel
    conv_lhs => unfold whiteLoop
    by_cases hmax : maxIter = some numIter
    · simp [hmax]
    · rw [if_neg hmax]
      by_cases hvis : (st.cur, st.dp) ∈ visited
      · rw [if_pos hvis]; rfl
      · rw [if_neg hvis]
        have hnd2 : ((st.cur, st.dp) :: visited).Nodup :=
          List.nodup_cons.mpr ⟨hvis, hnd⟩
        have hvg2 : ∀ p ∈ (st.cur, st.dp) :: visited,
            p.1.1 < img.height ∧ p.1.2 < img.width := by
          intro p hp
          rcases List.mem_cons.mp hp with h | h
          · subst h; exact hcg
          · exact hvg p h
        have hfuel2 : 4 * img.height * img.width + 1 ≤
            f + ((st.cur, st.dp) :: visited).length := by
          simp [List.length_cons]; omega
        cases hn : img.nextInDPDirection st.cur st.dp with
        | none =>
          simp only []
          exact ih _ _ _ hnd2 hvg2 hcg hfuel2
        | some idx =>
          simp only []
          by_cases hblack : (img.codelAt idx).is_black = true
          · rw [if_pos hblack]
            exact ih _ _ _ hnd2 hvg2 hcg hfuel2
          · rw [if_neg hblack]
            by_cases hwhite : (img.codelAt idx).is_white = true
            · rw [if_pos hwhite]
              exact ih _ _ _ hnd2 hvg2
                (nextInDPDirection_in_grid img st.cur st.dp idx hn) hfuel2
            · rw [if_neg hwhite]; rfl

/-- A one-codel all-white image. -/
def imgWhite : Image :=
  { height := 1, width := 1, codelAt := fun _ => .White,
    nextCodelIndex := fun _ _ _ => none, blockSizeAt := fun _ => 1 }

/-- Witness for C7 on a 1 by 1 white image with fuel 5 (= 4*1*1 + 1). -/
theorem white_slide_terminates_witness :
    (whiteLoop imgWhite none stPtr [] 0 5).isSome :=
  white_slide_terminates imgWhite none 5 stPtr [] 0 (by simp) (by simp)
    (by decide) (by decide)

/-! ### C5 -/

def lexLe (p q : Nat × Nat) : Prop := p.1 < q.1 ∨ (p.1 = q.1 ∧ p.2 ≤ q.2)

theorem lexLe_trans (p q r : Nat × Nat) (h1 : lexLe p q) (h2 : lexLe q r) :
    lexLe p r := by
  unfold lexLe at *
  omega

theorem lexLe_fst_le (p q : Nat × Nat) (h : lexLe p q) : p.1 ≤ q.1 := by
  unfold lexLe at h; omega

theorem lexLe_snd_le_of_fst_eq (p q : Nat × Nat) (h : lexLe p q)
    (he : p.1 = q.1) : p.2 ≤ q.2 := by
  unfold lexLe at h; omega

theorem pmin_eq_or (p q : Nat × Nat) : pmin p q = p ∨ pmin p q = q := by
  unfold pmin; split_ifs <;> simp

theorem pmax_eq_or (p q : Nat × Nat) : pmax p q = p ∨ pmax p q = q := by
  unfold pmax; split_ifs <;> simp

theorem pmin_lexLe_left (p q : Nat × Nat) : lexLe (pmin p q) p := by
  unfold pmin lexLe; split_ifs <;> omega

theorem pmin_lexLe_right (p q : Nat × Nat) : lexLe (pmin p q) q := by
  unfold pmin lexLe; split_ifs <;> omega

theorem pmax_lexLe_left (p q : Nat × Nat) : lexLe p (pmax p q) := by
  unfold pmax lexLe; split_ifs <;> omega

theorem pmax_lexLe_right (p q : Nat × Nat) : lexLe q (pmax p q) := by
  unfold pmax lexLe; split_ifs <;> omega

theorem foldl_pmin_mem (x : Nat × Nat) (xs : List (Nat × Nat)) :
    xs.foldl pmin x ∈ x :: xs := by
  induction xs generalizing x with
  | nil => simp
  | cons a as ih =>
    rw [List.foldl_cons]
    rcases List.mem_cons.mp (ih (pmin x a)) with h | h
    · rcases pmin_eq_or x a with he | he
      · rw [h, he]; simp
      · rw [h, he]; simp
    · simp [h]

theorem foldl_pmax_mem (x : Nat × Nat) (xs : List (Nat × Nat)) :
    xs.foldl pmax x ∈ x :: xs := by
  induction xs generalizing x with
  | nil => simp
  | cons a as ih =>
    rw [List.foldl_cons]
    rcases List.mem_cons.mp (ih (pmax x a)) with h | h
    · rcases pmax_eq_or x a with he | he
      · rw [h, he]; simp
      · rw [h, he]; simp
    · simp [h]

theorem foldl_pmin_le (x : Nat × Nat) (xs : List (Nat × Nat)) :
    ∀ q ∈ x :: xs, lexLe (xs.foldl pmin x) q := by
  induction xs generalizing x with
  | nil =>
    intro q hq
    simp at hq
    subst hq
    exact Or.inr ⟨rfl, le_rfl⟩
  | cons a as ih =>
    intro q hq
    rw [List.foldl_cons]
    have hhead := ih (pmin x a) (pmin x a) (List.mem_cons_self _ _)
    rcases List.mem_cons.mp hq with h | h
    · rw [h]
      exact lexLe_trans _ _ _ hhead (pmin_lexLe_left x a)
    · rcases List.mem_cons.mp h with h2 | h2
      · rw [h2]
        exact lexLe_trans _ _ _ hhead (pmin_lexLe_right x a)
      · exact ih (pmin x a) q (List.mem_cons_of_mem _ h2)

theorem foldl_pmax_ge (x : Nat × Nat) (xs : List (Nat × Nat)) :
    ∀ q ∈ x :: xs, lexLe q (xs.foldl pmax x) := by
  induction xs generalizing x with
  | nil =>
    intro q hq
    simp at hq
    subst hq
    exact Or.inr ⟨rfl, le_rfl⟩
  | cons a as ih =>
    intro q hq
    rw [List.foldl_cons]
    have hhead := ih (pmax x a) (pmax x a) (List.mem_cons_self _ _)
    rcases List.mem_cons.mp hq with h | h
    · rw [h]
      exact lexLe_trans _ _ _ (pmax_lexLe_left x a) hhead
    · rcases List.mem_cons.mp h with h2 | h2
      · rw [h2]
        exact lexLe_trans _ _ _ (pmax_lexLe_right x a) hhead
      · exact ih (pmax x a) q (List.mem_cons_of_mem _ h2)

theorem lexMin_spec (l : List (Nat × Nat)) (hne : l ≠ []) :
    ∃ c, lexMin l = some c ∧ c ∈ l ∧ ∀ q ∈ l, lexLe c q := by
  cases l with
  | nil => exact absurd rfl hne
  | cons y ys => exact ⟨_, rfl, foldl_pmin_mem y ys, foldl_pmin_le y ys⟩

theorem lexMax_spec (l : List (Nat × Nat)) (hne : l ≠ []) :
    ∃ c, lexMax l = some c ∧ c ∈ l ∧ ∀ q ∈ l, lexLe q c := by
  cases l with
  | nil => exact absurd rfl hne
  | cons y ys => exact ⟨_, rfl, foldl_pmax_mem y ys, foldl_pmax_ge y ys⟩

theorem le_foldl_max (f : Nat × Nat → Nat) (xs : List (Nat × Nat)) :
    ∀ acc : Nat, acc ≤ xs.foldl (fun m p => max m (f p)) acc ∧
      ∀ q ∈ xs, f q ≤ xs.foldl (fun m p => max m (f p)) acc := by
  induction xs with
  | nil => intro acc; simp
  | cons a as ih =>
    intro acc
    have h := ih (max acc (f a))
    refine ⟨le_trans (le_max_left _ _) h.1, ?_⟩
    intro q hq
    rcases List.mem_cons.mp hq with h2 | h2
    · subst h2; exact le_trans (le_max_right _ _) h.1
    · exact h.2 q h2

theorem foldl_min_le (f : Nat × Nat → Nat) (xs : List (Nat × Nat)) :
    ∀ acc : Nat, xs.foldl (fun m p => min m (f p)) acc ≤ acc ∧
      ∀ q ∈ xs, xs.foldl (fun m p => min m (f p)) acc ≤ f q := by
  induction xs with
  | nil => intro acc; simp
  | cons a as ih =>
    intro acc
    have h := ih (min acc (f a))
    refine ⟨le_trans h.1 (min_le_left _ _), ?_⟩
    intro q hq
    rcases List.mem_cons.mp hq with h2 | h2
    · subst h2; exact le_trans h.1 (min_le_right _ _)
    · exact h.2 q h2

theorem foldl_max_attained (f : Nat × Nat → Nat) (xs : List (Nat × Nat)) :
    ∀ acc : Nat, xs.foldl (fun m p => max m (f p)) acc = acc ∨
      ∃ p ∈ xs, xs.foldl (fun m p => max m (f p)) acc = f p := by
  induction xs with
  | nil => intro acc; left; rfl
  | cons a as ih =>
    intro acc
    rw [List.foldl_cons]
    rcases ih (max acc (f a)) with h | h
    · rcases max_choice acc (f a) with hm | hm
      · left; rw [h, hm]
      · right; exact ⟨a, List.mem_cons_self _ _, by rw [h, hm]⟩
    · obtain ⟨p, hp, he⟩ := h
      right; exact ⟨p, List.mem_cons_of_mem _ hp, he⟩

theorem foldl_min_attained (f : Nat × Nat → Nat) (xs : List (Nat × Nat)) :
    ∀ acc : Nat, xs.foldl (fun m p => min m (f p)) acc = acc ∨
      ∃ p ∈ xs, xs.foldl (fun m p => min m (f p)) acc = f p := by
  induction xs with
  | nil => intro acc; left; rfl
  | cons a as ih =>
    intro acc
    rw [List.foldl_cons]
    rcases ih (min acc (f a)) with h | h
    · rcases min_choice acc (f a) with hm | hm
      · left; rw [h, hm]
      · right; exact ⟨a, List.mem_cons_self _ _, by rw [h, hm]⟩
    · obtain ⟨p, hp, he⟩ := h
      right; exact ⟨p, List.mem_cons_of_mem _ hp, he⟩

theorem filter_att_ne_nil (l : List (Nat × Nat)) (f : Nat × Nat → Nat)
    (v : Nat) (hatt : ∃ p ∈ l, f p = v) :
    l.filter (fun p => f p = v) ≠ [] := by
  obtain ⟨p, hp, he⟩ := hatt
  intro hemp
  have hm : p ∈ l.filter (fun p => f p = v) :=
    List.mem_filter.mpr ⟨hp, decide_eq_true he⟩
  rw [hemp] at hm
  simp at hm

/-- C5: on every non-empty coordinate set (modelled as the non-empty list an
iterator yields), Block::new succeeds, every corner returned by
get_corner_index belongs to the set, and each corner satisfies the (DP, CC)
table of the spec (`cornerSpec`): the extreme row or column in the DP
direction, with CC breaking the tie as the table states. -/
theorem block_corner_table (x : Nat × Nat) (xs : List (Nat × Nat))
    (dp : DP) (cc : CC) :
    ∃ b, Block.new (x :: xs) = some b ∧
      b.get_corner_index dp cc ∈ x :: xs ∧
      cornerSpec (x :: xs) dp cc (b.get_corner_index dp cc) := by
  have hjmax_ge : ∀ q ∈ x :: xs, q.2 ≤ xs.foldl (fun m p => max m p.2) x.2 := by
    intro q hq
    rcases List.mem_cons.mp hq with h | h
    · rw [h]; exact (le_foldl_max (fun p => p.2) xs x.2).1
    · exact (le_foldl_max (fun p => p.2) xs x.2).2 q h
  have hjmax_att : ∃ p ∈ x :: xs,
      p.2 = xs.foldl (fun m p => max m p.2) x.2 := by
    rcases foldl_max_attained (fun p => p.2) xs x.2 with h | h
    · exact ⟨x, List.mem_cons_self _ _, h.symm⟩
    · obtain ⟨p, hp, he⟩ := h
      exact ⟨p, List.mem_cons_of_mem _ hp, he.symm⟩
  have hjmin_le : ∀ q ∈ x :: xs, xs.foldl (fun m p => min m p.2) x.2 ≤ q.2 := by
    intro q hq
    rcases List.mem_cons.mp hq with h | h
    · rw [h]; exact (foldl_min_le (fun p => p.2) xs x.2).1
    · exact (foldl_min_le (fun p => p.2) xs x.2).2 q h
  have hjmin_att : ∃ p ∈ x :: xs,
      p.2 = xs.foldl (fun m p => min m p.2) x.2 := by
    rcases foldl_min_attained (fun p => p.2) xs x.2 with h | h
    · exact ⟨x, List.mem_cons_self _ _, h.symm⟩
    · obtain ⟨p, hp, he⟩ := h
      exact ⟨p, List.mem_cons_of_mem _ hp, he.symm⟩
  have himax_ge : ∀ q ∈ x :: xs, q.1 ≤ xs.foldl (fun m p => max m p.1) x.1 := by
    intro q hq
    rcases List.mem_cons.mp hq with h | h
    · rw [h]; exact (le_foldl_max (fun p => p.1) xs x.1).1
    · exact (le_foldl_max (fun p => p.1) xs x.1).2 q h
  have himax_att : ∃ p ∈ x :: xs,
      p.1 = xs.foldl (fun m p => max m p.1) x.1 := by
    rcases foldl_max_attained (fun p => p.1) xs x.1 with h | h
    · exact ⟨x, List.mem_cons_self _ _, h.symm⟩
    · obtain ⟨p, hp, he⟩ := h
      exact ⟨p, List.mem_cons_of_mem _ hp, he.symm⟩
  have himin_le : ∀ q ∈ x :: xs, xs.foldl (fun m p => min m p.1) x.1 ≤ q.1 := by
    intro q hq
    rcases List.mem_cons.mp hq with h | h
    · rw [h]; exact (foldl_min_le (fun p => p.1) xs x.1).1
    · exact (foldl_min_le (fun p => p.1) xs x.1).2 q h
  have himin_att : ∃ p ∈ x :: xs,
      p.1 = xs.foldl (fun m p => min m p.1) x.1 := by
    rcases foldl_min_attained (fun p => p.1) xs x.1 with h | h
    · exact ⟨x, List.mem_cons_self _ _, h.symm⟩
    · obtain ⟨p, hp, he⟩ := h
      exact ⟨p, List.mem_cons_of_mem _ hp, he.symm⟩
  have hfRne : (x :: xs).filter
      (fun p => p.2 = xs.foldl (fun m p => max m p.2) x.2) ≠ [] :=
    filter_att_ne_nil _ (fun p => p.2) _ hjmax_att
  have hfDne : (x :: xs).filter
      (fun p => p.1 = xs.foldl (fun m p => max m p.1) x.1) ≠ [] :=
    filter_att_ne_nil _ (fun p => p.1) _ himax_att
  have hfLne : (x :: xs).filter
      (fun p => p.2 = xs.foldl (fun m p => min m p.2) x.2) ≠ [] :=
    filter_att_ne_nil _ (fun p => p.2) _ hjmin_att
  have hfUne : (x :: xs).filter
      (fun p => p.1 = xs.foldl (fun m p => min m p.1) x.1) ≠ [] :=
    filter_att_ne_nil _ (fun p => p.1) _ himin_att
  obtain ⟨crl, hcrl, hcrlm, hcrlle⟩ := lexMin_spec _ hfRne
  obtain ⟨crr, hcrr, hcrrm, hcrrge⟩ := lexMax_spec _ hfRne
  obtain ⟨cdl, hcdl, hcdlm, hcdlge⟩ := lexMax_spec _ hfDne
  obtain ⟨cdr, hcdr, hcdrm, hcdrle⟩ := lexMin_spec _ hfDne
  obtain ⟨cll, hcll, hcllm, hcllge⟩ := lexMax_spec _ hfLne
  obtain ⟨clr, hclr, hclrm, hclrle⟩ := lexMin_spec _ hfLne
  obtain ⟨cul, hcul, hculm, hculle⟩ := lexMin_spec _ hfUne
  obtain ⟨cur, hcur, hcurm, hcurge⟩ := lexMax_spec _ hfUne
  have hnew : Block.new (x :: xs) = some
      { size := (x :: xs).length, right_left := crl, right_right := crr,
        down_left := cdl, down_right := cdr, left_left := cll,
        left_right := clr, up_left := cul, up_right := cur } := by
    simp [Block.new, iMinOf, iMaxOf, jMinOf, jMaxOf, hcrl, hcrr, hcdl, hcdr,
      hcll, hclr, hcul, hcur]
  have hcrl_in : crl ∈ x :: xs := (List.mem_filter.mp hcrlm).1
  have hcrl_2 : crl.2 = xs.foldl (fun m p => max m p.2) x.2 :=
    of_decide_eq_true (List.mem_filter.mp hcrlm).2
  have hcrr_in : crr ∈ x :: xs := (List.mem_filter.mp hcrrm).1
  have hcrr_2 : crr.2 = xs.foldl (fun m p => max m p.2) x.2 :=
    of_decide_eq_true (List.mem_filter.mp hcrrm).2
  have hcdl_in : cdl ∈ x :: xs := (List.mem_filter.mp hcdlm).1
  have hcdl_1 : cdl.1 = xs.foldl (fun m p => max m p.1) x.1 :=
    of_decide_eq_true (List.mem_filter.mp hcdlm).2
  have hcdr_in : cdr ∈ x :: xs := (List.mem_filter.mp hcdrm).1
  have hcdr_1 : cdr.1 = xs.foldl (fun m p => max m p.1) x.1 :=
    of_decide_eq_true (List.mem_filter.mp hcdrm).2
  have hcll_in : cll ∈ x :: xs := (List.mem_filter.mp hcllm).1
  have hcll_2 : cll.2 = xs.foldl (fun m p => min m p.2) x.2 :=
    of_decide_eq_true (List.mem_filter.mp hcllm).2
  have hclr_in : clr ∈ x :: xs := (List.mem_filter.mp hclrm).1
  have hclr_2 : clr.2 = xs.foldl (fun m p => min m p.2) x.2 :=
    of_decide_eq_true (List.mem_filter.mp hclrm).2
  have hcul_in : cul ∈ x :: xs := (List.mem_filter.mp hculm).1
  have hcul_1 : cul.1 = xs.foldl (fun m p => min m p.1) x.1 :=
    of_decide_eq_true (List.mem_filter.mp hculm).2
  have hcur_in : cur ∈ x :: xs := (List.mem_filter.mp hcurm).1
  have hcur_1 : cur.1 = xs.foldl (fun m p => min m p.1) x.1 :=
    of_decide_eq_true (List.mem_filter.mp hcurm).2
  cases dp <;> cases cc <;>
    refine ⟨_, hnew, ?_, ?_⟩ <;>
    simp only [Block.get_corner_index, cornerSpec]
  · exact hcrl_in
  · constructor
    · intro q hq; rw [hcrl_2]; exact hjmax_ge q hq
    · intro q hq hqe
      have hqf : q ∈ (x :: xs).filter (fun p => p.2 = xs.foldl (fun m p => max m p.2) x.2) :=
        List.mem_filter.mpr ⟨hq, decide_eq_true (hqe.trans hcrl_2)⟩
      exact lexLe_fst_le _ _ (hcrlle q hqf)
  · exact hcrr_in
  · constructor
    · intro q hq; rw [hcrr_2]; exact hjmax_ge q hq
    · intro q hq hqe
      have hqf : q ∈ (x :: xs).filter (fun p => p.2 = xs.foldl (fun m p => max m p.2) x.2) :=
        List.mem_filter.mpr ⟨hq, decide_eq_true (hqe.trans hcrr_2)⟩
      exact lexLe_fst_le _ _ (hcrrge q hqf)
  · exact hcdl_in
  · constructor
    · intro q hq; rw [hcdl_1]; exact himax_ge q hq
    · intro q hq hqe
      have hqf : q ∈ (x :: xs).filter (fun p => p.1 = xs.foldl (fun m p => max m p.1) x.1) :=
        List.mem_filter.mpr ⟨hq, decide_eq_true (hqe.trans hcdl_1)⟩
      exact lexLe_snd_le_of_fst_eq _ _ (hcdlge q hqf) hqe
  · exact hcdr_in
  · constructor
    · intro q hq; rw [hcdr_1]; exact himax_ge q hq
    · intro q hq hqe
      have hqf : q ∈ (x :: xs).filter (fun p => p.1 = xs.foldl (fun m p => max m p.1) x.1) :=
        List.mem_filter.mpr ⟨hq, decide_eq_true (hqe.trans hcdr_1)⟩
      exact lexLe_snd_le_of_fst_eq _ _ (hcdrle q hqf) hqe.symm
  · exact hcll_in
  · constructor
    · intro q hq; rw [hcll_2]; exact hjmin_le q hq
    · intro q hq hqe
      have hqf : q ∈ (x :: xs).filter (fun p => p.2 = xs.foldl (fun m p => min m p.2) x.2) :=
        List.mem_filter.mpr ⟨hq, decide_eq_true (hqe.trans hcll_2)⟩
      exact lexLe_fst_le _ _ (hcllge q hqf)
  · exact hclr_in
  · constructor
    · intro q hq; rw [hclr_2]; exact hjmin_le q hq
    · intro q hq hqe
      have hqf : q ∈ (x :: xs).filter (fun p => p.2 = xs.foldl (fun m p => min m p.2) x.2) :=
        List.mem_filter.mpr ⟨hq, decide_eq_true (hqe.trans hclr_2)⟩
      exact lexLe_fst_le _ _ (hclrle q hqf)
  · exact hcul_in
  · constructor
    · intro q hq; rw [hcul_1]; exact himin_le q hq
    · intro q hq hqe
      have hqf : q ∈ (x :: xs).filter (fun p => p.1 = xs.foldl (fun m p => min m p.1) x.1) :=
        List.mem_filter.mpr ⟨hq, decide_eq_true (hqe.trans hcul_1)⟩
      exact lexLe_snd_le_of_fst_eq _ _ (hculle q hqf) hqe.symm
  · exact hcur_in
  · constructor
    · intro q hq; rw [hcur_1]; exact himin_le q hq
    · intro q hq hqe
      have hqf : q ∈ (x :: xs).filter (fun p => p.1 = xs.foldl (fun m p => min m p.1) x.1) :=
        List.mem_filter.mpr ⟨hq, decide_eq_true (hqe.trans hcur_1)⟩
      exact lexLe_snd_le_of_fst_eq _ _ (hcurge q hqf) hqe
